import Mathlib

/-!
Verification of the address-geocoding / spatial-clustering pipeline
(`step1.py` … `step4.py`, `app.py`).

Strings of the Python source are modelled as `List Char` (`Str`); Python's
`str.upper`/`str.lower` are modelled by ASCII case folding, `str.strip` by
dropping the ASCII whitespace characters Python strips, and `str.split(",")`
by an exact comma split.  Floating-point coordinates are modelled by real
numbers.
-/

/-- A Python string, modelled as its list of characters. -/
abbrev Str := List Char

/-- Characters of a Lean string literal, used to transcribe Python literals. -/
def chars (s : String) : Str := s.data

/-- The whitespace characters stripped by Python's `str.strip()`. -/
def pyIsSpace (c : Char) : Bool :=
  c = ' ' || c = '\t' || c = '\n' || c = '\x0d' || c = '\x0b' || c = '\x0c'

/-- Python `str.strip()`: remove leading and trailing whitespace. -/
def pyStrip (l : Str) : Str :=
  ((l.dropWhile pyIsSpace).reverse.dropWhile pyIsSpace).reverse

/-- Python `str.split(",")`: split on every comma, keeping empty pieces. -/
def splitComma : Str → List Str
  | [] => [[]]
  | c :: cs =>
    match splitComma cs with
    | [] => if c = ',' then [[], []] else [[c]]
    | p :: ps => if c = ',' then [] :: p :: ps else (c :: p) :: ps

/-- Python `str.upper()`, restricted to ASCII case folding. -/
def asciiUpper (l : Str) : Str := l.map Char.toUpper

/-- Python `str.lower()`, restricted to ASCII case folding. -/
def asciiLower (l : Str) : Str := l.map Char.toLower

/-- The `_US_STATES` dictionary of `step2.py`: lowercase state name ↦ abbreviation. -/
def usStates : List (Str × Str) :=
  [(chars "alabama", chars "AL"), (chars "alaska", chars "AK"),
   (chars "arizona", chars "AZ"), (chars "arkansas", chars "AR"),
   (chars "california", chars "CA"), (chars "colorado", chars "CO"),
   (chars "connecticut", chars "CT"), (chars "delaware", chars "DE"),
   (chars "florida", chars "FL"), (chars "georgia", chars "GA"),
   (chars "hawaii", chars "HI"), (chars "idaho", chars "ID"),
   (chars "illinois", chars "IL"), (chars "indiana", chars "IN"),
   (chars "iowa", chars "IA"), (chars "kansas", chars "KS"),
   (chars "kentucky", chars "KY"), (chars "louisiana", chars "LA"),
   (chars "maine", chars "ME"), (chars "maryland", chars "MD"),
   (chars "massachusetts", chars "MA"), (chars "michigan", chars "MI"),
   (chars "minnesota", chars "MN"), (chars "mississippi", chars "MS"),
   (chars "missouri", chars "MO"), (chars "montana", chars "MT"),
   (chars "nebraska", chars "NE"), (chars "nevada", chars "NV"),
   (chars "new hampshire", chars "NH"), (chars "new jersey", chars "NJ"),
   (chars "new mexico", chars "NM"), (chars "new york", chars "NY"),
   (chars "north carolina", chars "NC"), (chars "north dakota", chars "ND"),
   (chars "ohio", chars "OH"), (chars "oklahoma", chars "OK"),
   (chars "oregon", chars "OR"), (chars "pennsylvania", chars "PA"),
   (chars "rhode island", chars "RI"), (chars "south carolina", chars "SC"),
   (chars "south dakota", chars "SD"), (chars "tennessee", chars "TN"),
   (chars "texas", chars "TX"), (chars "utah", chars "UT"),
   (chars "vermont", chars "VT"), (chars "virginia", chars "VA"),
   (chars "washington", chars "WA"), (chars "west virginia", chars "WV"),
   (chars "wisconsin", chars "WI"), (chars "wyoming", chars "WY")]

/-- `_STATE_ABBRS` of `step2.py`: the abbreviations plus the uppercased names. -/
def stateAbbrs : List Str :=
  usStates.map (·.2) ++ usStates.map (fun p => asciiUpper p.1)

/-- The tuple of country tokens tested by `_build_fallback_queries`. -/
def countryTokens : List Str := [chars "USA", chars "US", chars "UNITED STATES"]

/-- `p.upper() in _STATE_ABBRS or p.lower() in _US_STATES` for one part. -/
def partIsState (p : Str) : Bool :=
  stateAbbrs.contains (asciiUpper p) || (usStates.map (·.1)).contains (asciiLower p)

/-- `has_state` of `_build_fallback_queries`. -/
def hasState (parts : List Str) : Bool := parts.any partIsState

/-- `has_usa` of `_build_fallback_queries`: some comma-part is a country token. -/
def hasUsa (parts : List Str) : Bool :=
  parts.any (fun p => countryTokens.contains (asciiUpper p))

/-- The trimmed comma-parts of an address (`parts` in `_build_fallback_queries`). -/
def addressParts (address : Str) : List Str :=
  (splitComma address).map pyStrip

/-- The collapsed third query of `_build_fallback_queries`:
`f"{parts[0]}, {parts[-1]}, USA"`. -/
def collapsedQuery (address : Str) : Str :=
  (addressParts address).headD [] ++ chars ", " ++
    (addressParts address).getLastD [] ++ chars ", USA"

/-- `_build_fallback_queries` of `step2.py`: the ordered list of query
strings to try for one address. -/
def buildFallbackQueries (address : Str) : List Str :=
  let queries := [address]
  let parts := addressParts address
  let hasSt := hasState parts
  let hU := hasUsa parts
  let queries :=
    if hU then queries else queries ++ [address ++ chars ", USA"]
  if ¬hasSt ∧ ¬hU ∧ 2 ≤ parts.length then queries ++ [collapsedQuery address]
  else queries

/-! ## Geocoding (`step2.py`)

The external Nominatim lookup is modelled as an oracle
`g : Str → Except Unit (Option Location)`: `Except.error` models a raised
exception, `Except.ok none` an empty result, `Except.ok (some loc)` a
successful lookup.  The `try/except` of the source becomes a `match` on the
`Except` value; `time.sleep` and the `RateLimiter` only affect wall-clock
time and are not modelled. -/

/-- The `address` detail mapping of a Nominatim response
(`location.raw.get("address", {})`). -/
structure AddressDetails where
  city : Option Str
  town : Option Str
  village : Option Str
  postcode : Option Str
deriving DecidableEq

/-- A successful geopy `Location`: latitude, longitude and the raw details. -/
structure Location where
  latitude : ℝ
  longitude : ℝ
  raw : AddressDetails

/-- One geocoding attempt: the oracle answering one query string. -/
abbrev GeocodeOracle := Str → Except Unit (Option Location)

/-- The loop of `_geocode_with_fallback`: try each query in order; an
exception (`Except.error`) or empty result is a per-query failure. -/
def geocodeTryQueries (g : GeocodeOracle) : List Str → Option (Location × Str)
  | [] => none
  | q :: qs =>
    match g q with
    | Except.ok (some loc) => some (loc, q)
    | Except.ok none => geocodeTryQueries g qs
    | Except.error _ => geocodeTryQueries g qs

/-- `_geocode_with_fallback` of `step2.py`: returns the location and the
query that matched, or `none` when all fallback queries fail. -/
def geocodeWithFallback (g : GeocodeOracle) (address : Str) :
    Option (Location × Str) :=
  geocodeTryQueries g (buildFallbackQueries address)

/-- Python truthiness of an optional string: `None` and `""` are falsy. -/
def truthy : Option Str → Bool
  | none => false
  | some s => !s.isEmpty

/-- `raw.get("city") or raw.get("town") or raw.get("village", "")`. -/
def extractCity (raw : AddressDetails) : Str :=
  if truthy raw.city then raw.city.getD []
  else if truthy raw.town then raw.town.getD []
  else raw.village.getD []

/-- One record produced by `geocode_addresses`: the address plus the four
columns added by `step2.py`. -/
structure Record where
  address : Str
  latitude : Option ℝ
  longitude : Option ℝ
  city : Str
  zip_code : Str

/-- The enrichment of one row inside the loop of `geocode_addresses`:
a found location fills both coordinate components and the extracted
city/postal fields; a failed record gets no coordinate and empty strings. -/
def geocodeRow (g : GeocodeOracle) (address : Str) : Record :=
  match geocodeWithFallback g address with
  | some (loc, _) =>
    { address := address, latitude := some loc.latitude,
      longitude := some loc.longitude, city := extractCity loc.raw,
      zip_code := loc.raw.postcode.getD [] }
  | none =>
    { address := address, latitude := none, longitude := none,
      city := [], zip_code := [] }

/-- `geocode_addresses` of `step2.py`: enrich every address of the frame, in
order.  The four appended per-row lists of the source are assembled row-wise. -/
def geocodeAddresses (g : GeocodeOracle) (df : List Str) : List Record :=
  df.map (geocodeRow g)

/-! ## Density classification (`app.py`) -/

/-- `_get_density_label` of `app.py`.  `cid = none` models a NaN
`cluster_id`; the cluster column of the frame is the list of per-record
cluster values (`none` for NaN). -/
def getDensityLabel (cid : Option ℤ) (clusterCol : List (Option ℤ)) : Str :=
  match cid with
  | none => chars "Isolated"
  | some c =>
    if c = -1 then chars "Isolated"
    else
      let size := (clusterCol.filter (· = some c)).length
      if 10 ≤ size then chars "High"
      else if 5 ≤ size then chars "Medium"
      else chars "Low"

/-! ## Spatial clustering (`step3.py`)

`detect_clusters` filters the frame to rows with both coordinates, converts
them to radians, converts `eps_km` to an angular radius `eps_km / 6371`, and
runs DBSCAN with the haversine metric.  sklearn's `DBSCAN` is an external
library; its labelling is modelled below from the spec.  Real-number
comparisons are not computable, so `detectClusters` receives the
decidability of its own neighbour relation as an explicit argument `hdec`;
this is a proof artefact only and does not change what is computed. -/

/-- The haversine distance on the unit sphere between two
(latitude, longitude) pairs in radians, as used by sklearn's
`metric="haversine"`. -/
noncomputable def haversineDist (p q : ℝ × ℝ) : ℝ :=
  2 * Real.arcsin (Real.sqrt
    (Real.sin ((p.1 - q.1) / 2) ^ 2 +
      Real.cos p.1 * Real.cos q.1 * Real.sin ((p.2 - q.2) / 2) ^ 2))

/-- `np.radians`: degrees to radians, applied to both components. -/
noncomputable def toRad (p : ℝ × ℝ) : ℝ × ℝ :=
  (p.1 * (Real.pi / 180), p.2 * (Real.pi / 180))

/-- The neighbour relation of `detect_clusters`: the haversine distance of
the radian-converted points `i` and `j` is at most `eps_km / 6371`
(Earth's mean radius in km).  Out-of-range indices read the default point
`(0, 0)`; DBSCAN below only queries indices below `pts.length`. -/
def nbRel (pts : List (ℝ × ℝ)) (epsKm : ℝ) (i j : ℕ) : Prop :=
  haversineDist (toRad (pts.getD i (0, 0))) (toRad (pts.getD j (0, 0))) ≤
    epsKm / 6371

/-- Modelled from the spec: a DBSCAN core point has at least `min_samples`
points (itself included) within the neighbour radius. -/
def isCore (n : ℕ) (isNb : ℕ → ℕ → Bool) (m : ℕ) (i : ℕ) : Bool :=
  m ≤ ((List.range n).filter (fun j => isNb i j)).length

/-- Adjacency between two core points within neighbour range. -/
def adjCore (n : ℕ) (isNb : ℕ → ℕ → Bool) (m : ℕ) (i j : ℕ) : Bool :=
  isCore n isNb m i && isCore n isNb m j && isNb i j

/-- Reachability allowing intermediate stops only at the listed nodes
(Floyd–Warshall recursion); base case: equality or one edge. -/
def reachVia (adj : ℕ → ℕ → Bool) : List ℕ → ℕ → ℕ → Bool
  | [], i, j => i == j || adj i j
  | t :: ts, i, j =>
    reachVia adj ts i j || (reachVia adj ts i t && reachVia adj ts t j)

/-- Modelled from the spec: two core points belong to the same cluster when
they are transitively connected through in-range core points. -/
def coreConn (n : ℕ) (isNb : ℕ → ℕ → Bool) (m : ℕ) (i j : ℕ) : Bool :=
  reachVia (adjCore n isNb m) (List.range n) i j

/-- The smallest index connected to `i` — the representative of `i`'s core
component (used to number clusters in scan order, as sklearn does). -/
def repOf (n : ℕ) (isNb : ℕ → ℕ → Bool) (m : ℕ) (i : ℕ) : ℕ :=
  (((List.range n).filter (fun k => coreConn n isNb m i k)).min?).getD i

/-- The component representatives in ascending order; position in this list
is the cluster id. -/
def clusterReps (n : ℕ) (isNb : ℕ → ℕ → Bool) (m : ℕ) : List ℕ :=
  (List.range n).filter (fun i => isCore n isNb m i && repOf n isNb m i == i)

/-- The cluster id of a core point. -/
def coreLabel (n : ℕ) (isNb : ℕ → ℕ → Bool) (m : ℕ) (i : ℕ) : ℤ :=
  ((clusterReps n isNb m).indexOf (repOf n isNb m i) : ℤ)

/-- The core points within range of point `i` (ascending). -/
def coreNbrs (n : ℕ) (isNb : ℕ → ℕ → Bool) (m : ℕ) (i : ℕ) : List ℕ :=
  (List.range n).filter (fun j => isCore n isNb m j && isNb i j)

/-- Modelled from the spec: the DBSCAN label of point `i`.  A core point
gets its component's id; a non-core point in range of some core point is a
border point absorbed by the earliest-numbered such cluster (as in
sklearn's scan order); all other points are noise (−1). -/
def labelOf (n : ℕ) (isNb : ℕ → ℕ → Bool) (m : ℕ) (i : ℕ) : ℤ :=
  if isCore n isNb m i then coreLabel n isNb m i
  else
    match coreNbrs n isNb m i with
    | [] => -1
    | c :: cs => (cs.map (coreLabel n isNb m)).foldl min (coreLabel n isNb m c)

/-- Modelled from the spec: `DBSCAN(...).fit_predict` — one label per point. -/
def dbscanLabels (n : ℕ) (isNb : ℕ → ℕ → Bool) (m : ℕ) : List ℤ :=
  (List.range n).map (labelOf n isNb m)

/-- `has_coords` of `detect_clusters`: both coordinate components present. -/
def hasCoords (r : Record) : Bool := r.latitude.isSome && r.longitude.isSome

/-- The coordinate pair of a record when both components are present. -/
def coordOf (r : Record) : Option (ℝ × ℝ) :=
  match r.latitude, r.longitude with
  | some la, some lo => some (la, lo)
  | _, _ => none

/-- `valid_df[["latitude", "longitude"]].values`: the coordinates of the
rows that have both components, in frame order. -/
def validCoords (df : List Record) : List (ℝ × ℝ) :=
  df.filterMap coordOf

/-- A record after clustering: the same fields plus the `cluster` column. -/
structure CRecord where
  address : Str
  latitude : Option ℝ
  longitude : Option ℝ
  city : Str
  zip_code : Str
  cluster : ℤ

/-- Attach a cluster id to a record. -/
def Record.withCluster (r : Record) (c : ℤ) : CRecord :=
  { address := r.address, latitude := r.latitude, longitude := r.longitude,
    city := r.city, zip_code := r.zip_code, cluster := c }

/-- Forget the cluster column. -/
def CRecord.toRecord (r : CRecord) : Record :=
  { address := r.address, latitude := r.latitude, longitude := r.longitude,
    city := r.city, zip_code := r.zip_code }

/-- `df["cluster"] = -1; df.loc[has_coords, "cluster"] = valid_df["cluster"]`:
rows with coordinates consume the DBSCAN labels in order, all other rows
get −1. -/
def mergeLabels : List Record → List ℤ → List CRecord
  | [], _ => []
  | r :: rs, ls =>
    if hasCoords r then r.withCluster (ls.headD (-1)) :: mergeLabels rs ls.tail
    else r.withCluster (-1) :: mergeLabels rs ls

/-- The default `eps_km` of `detect_clusters`. -/
def epsKmDefault : ℝ := 0.5

/-- The default `min_samples` of `detect_clusters`. -/
def minSamplesDefault : ℕ := 3

/-- `detect_clusters` of `step3.py`.  If no row has valid coordinates every
row's cluster is −1 and no clustering runs; otherwise DBSCAN labels the
valid rows and the labels are merged back in order.  `hdec` supplies the
(classically trivial) decidability of the real-valued neighbour tests. -/
def detectClusters (df : List Record) (epsKm : ℝ) (minSamples : ℕ)
    (hdec : ∀ i j, Decidable (nbRel (validCoords df) epsKm i j)) :
    List CRecord :=
  let pts := validCoords df
  if pts.length = 0 then df.map (fun r => r.withCluster (-1))
  else
    mergeLabels df
      (dbscanLabels pts.length
        (fun i j => @decide (nbRel (validCoords df) epsKm i j) (hdec i j))
        minSamples)

/-! ## The `addresses` view of `app.py` -/

/-- The density shown for one row of the saved frame in the `addresses`
route: rows with a latitude get `_get_density_label(row["cluster"], df)`,
all other rows are shown as `Not processed`.  The frame is the enriched
one, so the `latitude` and `cluster` columns exist (`has_geocoded`). -/
def addressEntryDensity (df : List CRecord) (r : CRecord) : Str :=
  if r.latitude.isSome then
    getDensityLabel (some r.cluster) (df.map (fun x => some x.cluster))
  else chars "Not processed"

example : chars "ab" = ['a', 'b'] := rfl

/-- Scratch positions for a concrete DBSCAN run (half-degrees of longitude
on the equator, in the scan order 0..6). -/
def posZ : ℕ → ℤ
  | 0 => -4
  | 1 => -6
  | 2 => -5
  | 3 => -2
  | 4 => 0
  | 5 => 2
  | 6 => 1
  | _ + 7 => 0

/-- The neighbour matrix of the scratch run: within 1 degree (2 half-degrees). -/
def nb7 (i j : ℕ) : Bool := (posZ i - posZ j) ^ 2 ≤ 6

example : dbscanLabels 7 nb7 4 = [0, 0, 0, 0, 1, 1, 1] := by decide

/-! ## C3 — geocoding failure containment, C8 — coordinate integrity -/

/-- Every fallback query for `address` fails under the oracle `g`: each
attempt raises an exception or returns an empty result. -/
def allQueriesFail (g : GeocodeOracle) (address : Str) : Prop :=
  ∀ q ∈ buildFallbackQueries address,
    g q = Except.error () ∨ g q = Except.ok none

/-- The unresolved outcome: no coordinate, empty city and postal code. -/
def unresolvedRecord (address : Str) : Record :=
  { address := address, latitude := none, longitude := none,
    city := [], zip_code := [] }

/-- When every query in the list fails, the fallback loop returns `none`. -/
theorem geocodeTryQueries_none (g : GeocodeOracle) (qs : List Str)
    (h : ∀ q ∈ qs, g q = Except.error () ∨ g q = Except.ok none) :
    geocodeTryQueries g qs = none := by
  induction qs with
  | nil => rfl
  | cons q qs ih =>
    have hq := h q (List.mem_cons_self q qs)
    have hrest := ih fun p hp => h p (List.mem_cons.mpr (Or.inr hp))
    rcases hq with hq | hq <;> simp [geocodeTryQueries, hq, hrest]

/-- C3: for every oracle — including one that raises on every call — and
every input list, geocoding yields one output record per input record in
order (no exception aborts the loop), and an address whose every fallback
query fails is marked unresolved: no coordinate, empty city and postal
code, while all other records are still processed. -/
theorem claim_C3 (g : GeocodeOracle) (df : List Str) :
    (geocodeAddresses g df).length = df.length ∧
    ∀ (i : ℕ) (hi : i < df.length) (hi2 : i < (geocodeAddresses g df).length),
      allQueriesFail g (df.get ⟨i, hi⟩) →
      (geocodeAddresses g df).get ⟨i, hi2⟩ = unresolvedRecord (df.get ⟨i, hi⟩) := by
  constructor
  · simp [geocodeAddresses]
  · intro i hi hi2 hfail
    simp only [List.get_eq_getElem] at hfail ⊢
    have hnone : geocodeWithFallback g df[i] = none :=
      geocodeTryQueries_none g _ hfail
    simp only [geocodeAddresses, List.getElem_map]
    simp [geocodeRow, hnone, unresolvedRecord]

/-- C3 witness: an always-raising oracle on a one-address frame. -/
theorem claim_C3_witness :
    (geocodeAddresses (fun _ => Except.error ()) [chars "A"]).length = 1 ∧
    (geocodeAddresses (fun _ => Except.error ())
        [chars "A"]).get ⟨0, by simp [geocodeAddresses]⟩ =
      unresolvedRecord (chars "A") :=
  ⟨(claim_C3 (fun _ => Except.error ()) [chars "A"]).1,
    (claim_C3 (fun _ => Except.error ()) [chars "A"]).2 0 (by decide)
      (by simp [geocodeAddresses]) (fun q _ => Or.inl rfl)⟩

/-- C8: in every record produced by the geocoding stage the latitude is
set if and only if the longitude is set — the coordinate is fully present
or fully absent. -/
theorem claim_C8 (g : GeocodeOracle) (df : List Str) :
    ∀ r ∈ geocodeAddresses g df, r.latitude.isSome ↔ r.longitude.isSome := by
  intro r hr
  rcases List.mem_map.mp hr with ⟨addr, -, rfl⟩
  cases h : geocodeWithFallback g addr with
  | none => simp [geocodeRow, h]
  | some v => simp [geocodeRow, h]

/-- C8 witness: a succeeding oracle on a one-address frame. -/
theorem claim_C8_witness :
    (geocodeRow (fun _ => Except.ok (some ⟨1, 2, ⟨none, none, none, none⟩⟩))
        (chars "A")).latitude.isSome ↔
    (geocodeRow (fun _ => Except.ok (some ⟨1, 2, ⟨none, none, none, none⟩⟩))
        (chars "A")).longitude.isSome :=
  claim_C8 (fun _ => Except.ok (some ⟨1, 2, ⟨none, none, none, none⟩⟩))
    [chars "A"] _ (by simp [geocodeAddresses])

/-! ## C1 — density label thresholds -/

/-- C1 (amended): for a non-negative cluster id, the density label is
determined by the population of the cluster counted over all records
sharing that id, the record itself included: population ≥ 10 gives `High`,
5 ≤ population < 10 gives `Medium`, population < 5 gives `Low`, regardless
of geographic location. -/
theorem claim_C1 (c : ℤ) (col : List (Option ℤ)) (hc : 0 ≤ c) :
    (10 ≤ (col.filter (· = some c)).length →
      getDensityLabel (some c) col = chars "High") ∧
    (5 ≤ (col.filter (· = some c)).length ∧ (col.filter (· = some c)).length < 10 →
      getDensityLabel (some c) col = chars "Medium") ∧
    ((col.filter (· = some c)).length < 5 →
      getDensityLabel (some c) col = chars "Low") := by
  have hne : ¬c = -1 := by omega
  refine ⟨fun h10 => ?_, fun h5 => ?_, fun h0 => ?_⟩ <;>
    simp only [getDensityLabel, if_neg hne] <;> split_ifs <;>
    first | rfl | omega

/-- C1 as stated is false on the code: in a frame of ten records all in
cluster 0, a record of that cluster has nine *other* records sharing its
cluster id, so the claim's thresholds give `Medium`, but the code counts
the record itself as well and returns `High`. -/
theorem claim_C1_counterexample :
    (((List.replicate 10 (some (0 : ℤ))).eraseIdx 0).filter
        (· = some (0 : ℤ))).length = 9 ∧
    getDensityLabel (some 0) (List.replicate 10 (some (0 : ℤ))) = chars "High" ∧
    getDensityLabel (some 0) (List.replicate 10 (some (0 : ℤ))) ≠ chars "Medium" := by
  refine ⟨by decide, by decide, by decide⟩

/-- C1 witness: the amended theorem applied to a five-record cluster. -/
theorem claim_C1_witness :
    getDensityLabel (some 0) (List.replicate 5 (some (0 : ℤ))) = chars "Medium" :=
  (claim_C1 0 (List.replicate 5 (some (0 : ℤ))) (by decide)).2.1 (by decide)

/-! ## C4 — label priority and exclusion of coordinate-less records -/

/-- C4: density labels are assigned in priority order — a record without a
coordinate is shown as `Not processed` (the spec's `NotProcessed`), a
record with a coordinate and cluster id −1 is labelled `Isolated`, and
records without coordinates contribute nothing to the clustering input
set (filtering them away leaves the clusterer's point list unchanged). -/
theorem claim_C4 (df : List CRecord) (df2 : List Record) :
    (∀ r ∈ df, r.latitude = none →
      addressEntryDensity df r = chars "Not processed") ∧
    (∀ r ∈ df, r.latitude.isSome = true → r.cluster = -1 →
      addressEntryDensity df r = chars "Isolated") ∧
    validCoords df2 = validCoords (df2.filter hasCoords) := by
  refine ⟨?_, ?_, ?_⟩
  · intro r _ hlat
    simp [addressEntryDensity, hlat]
  · intro r _ hlat hcl
    simp [addressEntryDensity, hlat, hcl, getDensityLabel]
  · induction df2 with
    | nil => rfl
    | cons r rs ih =>
      by_cases h : hasCoords r = true
      · have hc : ∃ p, coordOf r = some p := by
          unfold hasCoords at h
          unfold coordOf
          cases hla : r.latitude <;> cases hlo : r.longitude <;> simp_all
        rcases hc with ⟨p, hp⟩
        rw [List.filter_cons_of_pos h]
        simp only [validCoords] at ih ⊢
        simp [List.filterMap_cons, hp, ih]
      · have hp : coordOf r = none := by
          unfold hasCoords at h
          unfold coordOf
          cases hla : r.latitude <;> cases hlo : r.longitude <;> simp_all
        rw [List.filter_cons_of_neg (by simpa using h)]
        simp only [validCoords] at ih ⊢
        simp [List.filterMap_cons, hp, ih]

/-- C4 witness: a coordinate-less record is `Not processed`; a located
noise record is `Isolated`. -/
theorem claim_C4_witness :
    addressEntryDensity [⟨chars "X", none, none, [], [], -1⟩]
      ⟨chars "X", none, none, [], [], -1⟩ = chars "Not processed" ∧
    addressEntryDensity [⟨chars "Y", some 1, some 2, [], [], -1⟩]
      ⟨chars "Y", some 1, some 2, [], [], -1⟩ = chars "Isolated" :=
  ⟨(claim_C4 [⟨chars "X", none, none, [], [], -1⟩] []).1 _ (by simp) rfl,
    (claim_C4 [⟨chars "Y", some 1, some 2, [], [], -1⟩] []).2.1 _ (by simp) rfl rfl⟩

/-! ## C7 — country-token suppression of the appended-USA query -/

/-- Appending a nonempty list changes a list. -/
theorem append_ne_self (a t : Str) (ht : t ≠ []) : a ++ t ≠ a := by
  intro h
  have h2 := congrArg List.length h
  rw [List.length_append] at h2
  exact ht (List.length_eq_zero.mp (by omega))

/-- The three possible outcomes of `_build_fallback_queries`, by case on
the country-token, state-token and part-count tests. -/
theorem buildFallbackQueries_shape (address : Str) :
    (hasUsa (addressParts address) = true →
      buildFallbackQueries address = [address]) ∧
    (hasUsa (addressParts address) = false →
      hasState (addressParts address) = false →
      2 ≤ (addressParts address).length →
      buildFallbackQueries address =
        [address, address ++ chars ", USA", collapsedQuery address]) ∧
    (hasUsa (addressParts address) = false →
      (hasState (addressParts address) = true ∨ (addressParts address).length < 2) →
      buildFallbackQueries address = [address, address ++ chars ", USA"]) := by
  refine ⟨fun h1 => ?_, fun h1 h2 h3 => ?_, fun h1 h2 => ?_⟩
  · simp [buildFallbackQueries, h1]
  · simp [buildFallbackQueries, h1, h2, h3]
  · simp only [buildFallbackQueries, h1, Bool.false_eq_true, if_false]
    rw [if_neg]
    · rfl
    · rintro ⟨hst, -, hlen⟩
      rcases h2 with h2 | h2
      · exact hst h2
      · omega

/-- C7: if some comma-part of the address is a country token the fallback
list is just the original address (so contains no appended-USA variant),
and the appended-USA query is in the list exactly when no part is a
country token. -/
theorem claim_C7 (address : Str) :
    (hasUsa (addressParts address) = true →
      buildFallbackQueries address = [address]) ∧
    (address ++ chars ", USA" ∈ buildFallbackQueries address ↔
      hasUsa (addressParts address) = false) := by
  obtain ⟨s1, s2, s3⟩ := buildFallbackQueries_shape address
  have hne : address ++ chars ", USA" ≠ address :=
    append_ne_self address (chars ", USA") (by decide)
  refine ⟨s1, ?_⟩
  by_cases hU : hasUsa (addressParts address) = true
  · rw [s1 hU, hU]
    simp only [List.mem_singleton]
    exact ⟨fun h => absurd h hne, fun h => absurd h (by decide)⟩
  · have hU' : hasUsa (addressParts address) = false := by
      cases h : hasUsa (addressParts address)
      · rfl
      · exact absurd h hU
    rw [hU']
    refine ⟨fun _ => rfl, fun _ => ?_⟩
    by_cases hcase : hasState (addressParts address) = false ∧
        2 ≤ (addressParts address).length
    · rw [s2 hU' hcase.1 hcase.2]
      simp
    · have hor : hasState (addressParts address) = true ∨
          (addressParts address).length < 2 := by
        rcases Bool.eq_false_or_eq_true (hasState (addressParts address)) with h | h
        · exact Or.inl h
        · right
          by_contra hlen
          exact hcase ⟨h, by omega⟩
      rw [s3 hU' hor]
      simp


/-! Lemmas about `splitComma` and `pyStrip`, used for C2. -/

/-- Splitting never yields an empty list of pieces. -/
theorem splitComma_ne_nil (l : Str) : splitComma l ≠ [] := by
  cases l with
  | nil => simp [splitComma]
  | cons c cs =>
    simp only [splitComma]
    rcases splitComma cs with _ | ⟨p, ps⟩ <;> split_ifs <;> simp

/-- No piece of a comma split contains a comma. -/
theorem splitComma_no_comma (l : Str) :
    ∀ p ∈ splitComma l, ',' ∉ p := by
  induction l with
  | nil => simp [splitComma]
  | cons c cs ih =>
    intro p hp
    simp only [splitComma] at hp
    rcases h : splitComma cs with _ | ⟨p₀, ps⟩
    · exact absurd h (splitComma_ne_nil cs)
    · rw [h] at hp
      split_ifs at hp with hc

      · rcases List.mem_cons.mp hp with rfl | hp'
        · simp
        · exact ih p (h ▸ hp')
      · rcases List.mem_cons.mp hp with rfl | hp'
        · intro hmem
          rcases List.mem_cons.mp hmem with rfl | hmem'
          · exact hc rfl
          · exact ih p₀ (h ▸ List.mem_cons_self p₀ ps) hmem'
        · exact ih p (h ▸ List.mem_cons.mpr (Or.inr hp'))

/-- Splitting a list whose head part is comma-free peels off that part. -/
theorem splitComma_append (l1 l2 : Str) (h : ',' ∉ l1) :
    splitComma (l1 ++ ',' :: l2) = l1 :: splitComma l2 := by
  induction l1 with
  | nil =>
    rcases h2 : splitComma l2 with _ | ⟨p, ps⟩
    · exact absurd h2 (splitComma_ne_nil l2)
    · simp [splitComma, h2]
  | cons a l1 ih =>
    have ha : ¬a = ',' := fun hh => h (hh ▸ List.mem_cons_self a l1)
    have h1 : ',' ∉ l1 := fun hh => h (List.mem_cons.mpr (Or.inr hh))
    simp only [List.cons_append, splitComma, List.append_eq]
    rw [ih h1]
    simp [ha]

/-- Splitting a comma-free list yields one piece. -/
theorem splitComma_single (l : Str) (h : ',' ∉ l) : splitComma l = [l] := by
  induction l with
  | nil => rfl
  | cons a l ih =>
    have ha : ¬a = ',' := fun hh => h (hh ▸ List.mem_cons_self a l)
    have h1 : ',' ∉ l := fun hh => h (List.mem_cons.mpr (Or.inr hh))
    simp [splitComma, ih h1, ha]

/-- Stripping only removes characters. -/
theorem pyStrip_subset (l : Str) : ∀ c, c ∈ pyStrip l → c ∈ l := by
  intro c hc
  unfold pyStrip at hc
  rw [List.mem_reverse] at hc
  have h1 := (List.dropWhile_sublist (l := (l.dropWhile pyIsSpace).reverse)
    (p := pyIsSpace)).subset hc
  rw [List.mem_reverse] at h1
  exact (List.dropWhile_sublist (l := l) (p := pyIsSpace)).subset h1

/-- The head of a nonempty list with a default is a member. -/
theorem headD_mem {α : Type} (l : List α) (d : α) (h : l ≠ []) :
    l.headD d ∈ l := by
  cases l with
  | nil => exact absurd rfl h
  | cons a as => exact List.mem_cons_self a as

/-- The last element of a nonempty list with a default is a member. -/
theorem getLastD_mem {α : Type} (l : List α) (d : α) (h : l ≠ []) :
    l.getLastD d ∈ l := by
  cases l with
  | nil => exact absurd rfl h
  | cons a as =>
    rw [List.getLastD_cons]
    clear h
    induction as generalizing a with
    | nil => simp
    | cons b bs ih =>
      rw [List.getLastD_cons]
      exact List.mem_cons.mpr (Or.inr (ih b))

/-- The comma split of `p0 ++ ", " ++ pl ++ ", USA"` for comma-free
`p0`, `pl`. -/
theorem splitComma_collapsed (p0 pl : Str) (h0 : ',' ∉ p0) (hl : ',' ∉ pl) :
    splitComma ((p0 ++ [',', ' '] ++ pl) ++ [',', ' ', 'U', 'S', 'A']) =
      [p0, ' ' :: pl, [' ', 'U', 'S', 'A']] := by
  have e : (p0 ++ [',', ' '] ++ pl) ++ [',', ' ', 'U', 'S', 'A'] =
      p0 ++ ',' :: ((' ' :: pl) ++ ',' :: [' ', 'U', 'S', 'A']) := by
    simp [List.append_assoc]
  have hsp : ',' ∉ (' ' :: pl) := by
    intro hmem
    rcases List.mem_cons.mp hmem with h | h
    · exact absurd h (by decide)
    · exact hl h
  rw [e, splitComma_append _ _ h0, splitComma_append _ _ hsp,
    splitComma_single _ (by decide)]

/-! ## C2 — deduplication of the fallback query list -/

/-- C2 (amended): the fallback query builder returns an ordered list of
candidate query strings in which no query appears more than once, except
in exactly one situation: when the address has no country token, no state
token, at least two comma-parts, and equals the ", "-join of its first and
last trimmed comma-parts, the appended-USA query and the collapsed query
are the same string and the returned list is `[address, address ++ ", USA",
address ++ ", USA"]`, that query occurring twice.  In every other case the
list has no duplicates. -/
theorem claim_C2 (address : Str) :
    (hasUsa (addressParts address) = false →
      hasState (addressParts address) = false →
      2 ≤ (addressParts address).length →
      address = (addressParts address).headD [] ++ chars ", " ++
        (addressParts address).getLastD [] →
      buildFallbackQueries address =
        [address, address ++ chars ", USA", address ++ chars ", USA"]) ∧
    (¬ (hasUsa (addressParts address) = false ∧
        hasState (addressParts address) = false ∧
        2 ≤ (addressParts address).length ∧
        address = (addressParts address).headD [] ++ chars ", " ++
          (addressParts address).getLastD []) →
      (buildFallbackQueries address).Nodup) := by
  obtain ⟨s1, s2, s3⟩ := buildFallbackQueries_shape address
  have hq2 : address ≠ address ++ chars ", USA" :=
    fun hh => append_ne_self address (chars ", USA") (by decide) hh.symm
  constructor
  · intro hU' hS hlen heq
    rw [s2 hU' hS hlen]
    have hco : collapsedQuery address = address ++ chars ", USA" := by
      show ((addressParts address).headD [] ++ chars ", " ++
          (addressParts address).getLastD []) ++ chars ", USA" =
        address ++ chars ", USA"
      rw [← heq]
    rw [hco]
  intro hn
  by_cases hU : hasUsa (addressParts address) = true
  · rw [s1 hU]
    exact List.nodup_singleton address
  · have hU' : hasUsa (addressParts address) = false := by
      cases hx : hasUsa (addressParts address)
      · rfl
      · exact absurd hx hU
    by_cases hcase : hasState (addressParts address) = false ∧
        2 ≤ (addressParts address).length
    · have h : address ≠ (addressParts address).headD [] ++ chars ", " ++
          (addressParts address).getLastD [] :=
        fun he => hn ⟨hU', hcase.1, hcase.2, he⟩
      rw [s2 hU' hcase.1 hcase.2]
      have hparts_ne : addressParts address ≠ [] := by
        unfold addressParts
        simp [splitComma_ne_nil address]
      have hp0c : ',' ∉ (addressParts address).headD [] := by
        have hmem := headD_mem (addressParts address) [] hparts_ne
        unfold addressParts at hmem ⊢
        rcases List.mem_map.mp hmem with ⟨piece, hpiece, hpe⟩
        rw [← hpe]
        exact fun hc =>
          splitComma_no_comma address piece hpiece (pyStrip_subset piece ',' hc)
      have hplc : ',' ∉ (addressParts address).getLastD [] := by
        have hmem := getLastD_mem (addressParts address) [] hparts_ne
        unfold addressParts at hmem ⊢
        rcases List.mem_map.mp hmem with ⟨piece, hpiece, hpe⟩
        rw [← hpe]
        exact fun hc =>
          splitComma_no_comma address piece hpiece (pyStrip_subset piece ',' hc)
      have hcq : collapsedQuery address =
          ((addressParts address).headD [] ++ [',', ' '] ++
            (addressParts address).getLastD []) ++ [',', ' ', 'U', 'S', 'A'] := rfl
      have hq3 : address ≠ collapsedQuery address := by
        intro haddr
        have hsplit := splitComma_collapsed _ _ hp0c hplc
        rw [← hcq, ← haddr] at hsplit
        have htrue : hasUsa (addressParts address) = true := by
          unfold addressParts
          rw [hsplit]
          refine List.any_eq_true.mpr ⟨pyStrip [' ', 'U', 'S', 'A'], ?_, by decide⟩
          simp
        rw [htrue] at hU'
        exact absurd hU' (by decide)
      have hq23 : address ++ chars ", USA" ≠ collapsedQuery address := by
        intro hh
        apply h
        rw [hcq] at hh
        exact List.append_cancel_right hh
      simp [List.nodup_cons, hq2, hq3, hq23]
    · have hor : hasState (addressParts address) = true ∨
          (addressParts address).length < 2 := by
        rcases Bool.eq_false_or_eq_true (hasState (addressParts address)) with hx | hx
        · exact Or.inl hx
        · right
          by_contra hlen
          exact hcase ⟨hx, by omega⟩
      rw [s3 hU' hor]
      simp [List.nodup_cons, hq2]

/-- C2 as stated is false on the code: for the two-part address
`"1 Main St, Springfield"` the USA-appended query and the collapsed query
are the same string, so it appears twice in the returned list. -/
theorem claim_C2_counterexample :
    ¬ (buildFallbackQueries (chars "1 Main St, Springfield")).Nodup ∧
    buildFallbackQueries (chars "1 Main St, Springfield") =
      [chars "1 Main St, Springfield",
        chars "1 Main St, Springfield, USA",
        chars "1 Main St, Springfield, USA"] :=
  ⟨by decide, by decide⟩

/-- C2 witness: the duplicate branch at the two-part address with no
state or country token, and the duplicate-free branch at a three-part
address and at a state-suppressed address equal to its first/last join. -/
theorem claim_C2_witness :
    buildFallbackQueries (chars "1 Main St, Springfield") =
      [chars "1 Main St, Springfield",
        chars "1 Main St, Springfield, USA",
        chars "1 Main St, Springfield, USA"] ∧
    (buildFallbackQueries (chars "1 Main St, Springfield, IL")).Nodup ∧
    (buildFallbackQueries (chars "Boston, MA")).Nodup :=
  ⟨(claim_C2 (chars "1 Main St, Springfield")).1
      (by decide) (by decide) (by decide) (by decide),
    (claim_C2 (chars "1 Main St, Springfield, IL")).2 (by decide),
    (claim_C2 (chars "Boston, MA")).2 (by decide)⟩

/-- C7 witness: an address already containing the country token. -/
theorem claim_C7_witness :
    buildFallbackQueries (chars "5 Elm St, Boston, USA") =
      [chars "5 Elm St, Boston, USA"] :=
  (claim_C7 (chars "5 Elm St, Boston, USA")).1 (by decide)

example :
    dbscanLabels 3 (fun _ _ => true) 3 = [0, 0, 0] := by decide

example : splitComma (chars "a,b, c") = [chars "a", chars "b", chars " c"] := by decide

example : pyStrip (chars "  a b  ") = chars "a b" := by decide

example : buildFallbackQueries (chars "1 Main St, Springfield, IL") =
    [chars "1 Main St, Springfield, IL", chars "1 Main St, Springfield, IL, USA"] := by
  decide

example : buildFallbackQueries (chars "1 Main St, Springfield") =
    [chars "1 Main St, Springfield",
     chars "1 Main St, Springfield, USA",
     chars "1 Main St, Springfield, USA"] := by
  decide

example : buildFallbackQueries (chars "5 Elm St, Boston, USA") =
    [chars "5 Elm St, Boston, USA"] := by decide

/-! ## Haversine facts and decidability helpers -/

/-- The haversine distance from a point to itself is zero. -/
theorem haversineDist_self (p : ℝ × ℝ) : haversineDist p p = 0 := by
  unfold haversineDist
  simp

/-- Points read as equal pairs are neighbours whenever `eps_km` is
non-negative. -/
theorem nbRel_of_getD_eq (pts : List (ℝ × ℝ)) (epsKm : ℝ) (h : 0 ≤ epsKm)
    (i j : ℕ) (hij : pts.getD i (0, 0) = pts.getD j (0, 0)) :
    nbRel pts epsKm i j := by
  unfold nbRel
  rw [hij, haversineDist_self]
  positivity

/-- Reading any index of a list of all-zero points yields the zero point. -/
theorem getD_const_zero (pts : List (ℝ × ℝ))
    (h : ∀ q ∈ pts, q = ((0 : ℝ), (0 : ℝ))) (i : ℕ) :
    pts.getD i (0, 0) = (0, 0) := by
  rw [List.getD_eq_getElem?_getD]
  cases hg : pts[i]? with
  | none => rfl
  | some a =>
    have := List.getElem?_mem hg
    simp [h a this]

/-- The neighbour relation over all-zero points is decidable (always true)
for non-negative `eps_km`. -/
def decNbRelZero (pts : List (ℝ × ℝ))
    (h : ∀ q ∈ pts, q = ((0 : ℝ), (0 : ℝ))) (epsKm : ℝ) (he : 0 ≤ epsKm) :
    ∀ i j, Decidable (nbRel pts epsKm i j) := fun i j =>
  isTrue (nbRel_of_getD_eq pts epsKm he i j
    (by rw [getD_const_zero pts h i, getD_const_zero pts h j]))

/-- A record without coordinates contributes no point. -/
theorem coordOf_eq_none (r : Record) (h : hasCoords r = false) :
    coordOf r = none := by
  unfold hasCoords at h
  unfold coordOf
  cases hla : r.latitude <;> cases hlo : r.longitude <;> simp_all

/-! ## C6 — all records unresolved -/

/-- C6: when no record has a coordinate, `detect_clusters` returns the
frame unchanged except for a `cluster` column equal to −1 everywhere — the
early-return branch, which never consults the distance relation. -/
theorem claim_C6 (df : List Record) (epsKm : ℝ) (m : ℕ)
    (hdec : ∀ i j, Decidable (nbRel (validCoords df) epsKm i j))
    (h : ∀ r ∈ df, hasCoords r = false) :
    detectClusters df epsKm m hdec = df.map (fun r => r.withCluster (-1)) := by
  have hempty : validCoords df = [] := by
    unfold validCoords
    rw [List.filterMap_eq_nil_iff]
    exact fun r hr => coordOf_eq_none r (h r hr)
  unfold detectClusters
  simp [hempty]

/-- C6 witness: a one-record unresolved frame. -/
theorem claim_C6_witness :
    detectClusters [unresolvedRecord (chars "A")] 0.5 3
        (decNbRelZero _ (by simp [validCoords, unresolvedRecord, coordOf])
          0.5 (by norm_num)) =
      [(unresolvedRecord (chars "A")).withCluster (-1)] :=
  claim_C6 [unresolvedRecord (chars "A")] 0.5 3 _
    (fun r hr => by
      rw [List.mem_singleton.mp hr]
      rfl)

/-! ## C9 — metric, radius conversion and defaults -/

/-- C9: the clusterer's neighbour test compares the haversine distance of
the radian-converted points against `eps_km / 6371` — equivalently, the
haversine distance scaled by Earth's mean radius of 6371 km against
`eps_km` — and the default parameters are `eps_km = 0.5`,
`min_samples = 3`. -/
theorem claim_C9 (pts : List (ℝ × ℝ)) (epsKm : ℝ) (i j : ℕ) :
    (nbRel pts epsKm i j ↔
      6371 * haversineDist (toRad (pts.getD i (0, 0)))
        (toRad (pts.getD j (0, 0))) ≤ epsKm) ∧
    epsKmDefault = 0.5 ∧ minSamplesDefault = 3 := by
  refine ⟨?_, rfl, rfl⟩
  unfold nbRel
  rw [le_div_iff₀ (by norm_num : (0 : ℝ) < 6371), mul_comm]

/-! ## C10 — the clustering stage only adds the cluster column -/

/-- Merging labels back preserves the number of records. -/
theorem mergeLabels_length (df : List Record) (ls : List ℤ) :
    (mergeLabels df ls).length = df.length := by
  induction df generalizing ls with
  | nil => rfl
  | cons r rs ih =>
    unfold mergeLabels
    split_ifs <;> simp [ih]

/-- The defining equation of `mergeLabels` on a nonempty frame. -/
theorem mergeLabels_cons (r : Record) (rs : List Record) (ls : List ℤ) :
    mergeLabels (r :: rs) ls =
      if hasCoords r = true then
        r.withCluster (ls.headD (-1)) :: mergeLabels rs ls.tail
      else r.withCluster (-1) :: mergeLabels rs ls := rfl

/-- Merging labels back preserves every pre-existing field at every index
and gives −1 to records without coordinates. -/
theorem mergeLabels_get (df : List Record) (ls : List ℤ) (i : ℕ)
    (hi : i < df.length) (hi2 : i < (mergeLabels df ls).length) :
    ((mergeLabels df ls).get ⟨i, hi2⟩).toRecord = df.get ⟨i, hi⟩ ∧
    (hasCoords (df.get ⟨i, hi⟩) = false →
      ((mergeLabels df ls).get ⟨i, hi2⟩).cluster = -1) := by
  induction df generalizing ls i with
  | nil => exact absurd hi (by simp)
  | cons r rs ih =>
    simp only [List.get_eq_getElem] at hi2 ⊢
    by_cases h : hasCoords r = true
    · have hm : mergeLabels (r :: rs) ls =
          r.withCluster (ls.headD (-1)) :: mergeLabels rs ls.tail := by
        rw [mergeLabels_cons, if_pos h]
      cases i with
      | zero =>
        refine ⟨?_, fun hf => ?_⟩
        · simp only [hm, List.getElem_cons_zero]
          rfl
        · simp only [List.getElem_cons_zero] at hf
          rw [h] at hf
          exact absurd hf (by simp)
      | succ n =>
        have hn : n < rs.length := by simpa using hi
        have hn2 : n < (mergeLabels rs ls.tail).length := by
          rw [mergeLabels_length]
          exact hn
        have hrec := ih ls.tail n hn hn2
        simp only [List.get_eq_getElem] at hrec
        simp only [hm, List.getElem_cons_succ]
        exact hrec
    · have hm : mergeLabels (r :: rs) ls =
          r.withCluster (-1) :: mergeLabels rs ls := by
        rw [mergeLabels_cons, if_neg h]
      cases i with
      | zero =>
        refine ⟨?_, fun _ => ?_⟩
        · simp only [hm, List.getElem_cons_zero]
          rfl
        · simp only [hm, List.getElem_cons_zero]
          rfl
      | succ n =>
        have hn : n < rs.length := by simpa using hi
        have hn2 : n < (mergeLabels rs ls).length := by
          rw [mergeLabels_length]
          exact hn
        have hrec := ih ls n hn hn2
        simp only [List.get_eq_getElem] at hrec
        simp only [hm, List.getElem_cons_succ]
        exact hrec

/-- Forgetting the cluster column of an annotated record recovers it. -/
theorem toRecord_withCluster (r : Record) (c : ℤ) :
    (r.withCluster c).toRecord = r := rfl

/-- The defining equation of `detect_clusters` with the `let` unfolded. -/
theorem detectClusters_eq (df : List Record) (epsKm : ℝ) (m : ℕ)
    (hdec : ∀ i j, Decidable (nbRel (validCoords df) epsKm i j)) :
    detectClusters df epsKm m hdec =
      if (validCoords df).length = 0 then df.map (fun r => r.withCluster (-1))
      else
        mergeLabels df
          (dbscanLabels (validCoords df).length
            (fun i j => @decide (nbRel (validCoords df) epsKm i j) (hdec i j))
            m) := rfl

/-- C10: `detect_clusters` preserves the number and order of records and
every pre-existing field, only adding the cluster id, which is −1 for
every record lacking a coordinate. -/
theorem claim_C10 (df : List Record) (epsKm : ℝ) (m : ℕ)
    (hdec : ∀ i j, Decidable (nbRel (validCoords df) epsKm i j)) :
    (detectClusters df epsKm m hdec).length = df.length ∧
    ∀ (i : ℕ) (hi : i < df.length)
      (hi2 : i < (detectClusters df epsKm m hdec).length),
      ((detectClusters df epsKm m hdec).get ⟨i, hi2⟩).toRecord = df.get ⟨i, hi⟩ ∧
      (hasCoords (df.get ⟨i, hi⟩) = false →
        ((detectClusters df epsKm m hdec).get ⟨i, hi2⟩).cluster = -1) := by
  rw [detectClusters_eq]
  by_cases hlen : (validCoords df).length = 0
  · rw [if_pos hlen]
    refine ⟨by simp, fun i hi hi2 => ?_⟩
    constructor
    · simp only [List.get_eq_getElem, List.getElem_map]
      rfl
    · intro _
      simp only [List.get_eq_getElem, List.getElem_map]
      rfl
  · rw [if_neg hlen]
    exact ⟨mergeLabels_length df _, fun i hi hi2 => mergeLabels_get df _ i hi hi2⟩

/-- C10 witness: a two-record frame, one located at the origin and one
unresolved. -/
theorem claim_C10_witness :
    (detectClusters [⟨chars "A", some 0, some 0, [], []⟩,
        unresolvedRecord (chars "B")] 0.5 3
      (decNbRelZero _ (by simp [validCoords, unresolvedRecord, coordOf])
        0.5 (by norm_num))).length = 2 ∧
    ((detectClusters [⟨chars "A", some 0, some 0, [], []⟩,
        unresolvedRecord (chars "B")] 0.5 3
      (decNbRelZero _ (by simp [validCoords, unresolvedRecord, coordOf])
        0.5 (by norm_num))).get ⟨1, by
          rw [(claim_C10 _ _ _ _).1]
          norm_num⟩).cluster = -1 := by
  constructor
  · exact (claim_C10 _ _ _ _).1
  · exact ((claim_C10 _ _ _ _).2 1 (by norm_num) _).2 rfl

/-! ## Reachability lemmas for the DBSCAN core graph -/

/-- Reachability is reflexive. -/
theorem reachVia_refl (adj : ℕ → ℕ → Bool) (L : List ℕ) (i : ℕ) :
    reachVia adj L i i = true := by
  induction L with
  | nil => simp [reachVia]
  | cons t ts ih => simp [reachVia, ih]

/-- One edge gives reachability. -/
theorem reachVia_of_adj (adj : ℕ → ℕ → Bool) (L : List ℕ) (i j : ℕ)
    (h : adj i j = true) : reachVia adj L i j = true := by
  induction L with
  | nil => simp [reachVia, h]
  | cons t ts ih => simp [reachVia, ih]

/-- Reachability over a symmetric adjacency is symmetric. -/
theorem reachVia_symm (adj : ℕ → ℕ → Bool)
    (hsym : ∀ i j, adj i j = adj j i) (L : List ℕ) :
    ∀ i j, reachVia adj L i j = true → reachVia adj L j i = true := by
  induction L with
  | nil =>
    intro i j h
    simp only [reachVia, Bool.or_eq_true, beq_iff_eq] at h ⊢
    rcases h with h | h
    · exact Or.inl h.symm
    · exact Or.inr (hsym j i ▸ h)
  | cons t ts ih =>
    intro i j h
    simp only [reachVia, Bool.or_eq_true, Bool.and_eq_true] at h ⊢
    rcases h with h | ⟨h1, h2⟩
    · exact Or.inl (ih i j h)
    · exact Or.inr ⟨ih t j h2, ih i t h1⟩

/-- Dropping the head stop: reaching the head node needs no stop at it. -/
theorem reachVia_to_head (adj : ℕ → ℕ → Bool) (a : ℕ) (ts : List ℕ)
    (i : ℕ) (h : reachVia adj (a :: ts) i a = true) :
    reachVia adj ts i a = true := by
  simp only [reachVia, Bool.or_eq_true, Bool.and_eq_true] at h
  rcases h with h | ⟨h1, -⟩
  · exact h
  · exact h1

/-- Dropping the head stop on the other side. -/
theorem reachVia_from_head (adj : ℕ → ℕ → Bool) (a : ℕ) (ts : List ℕ)
    (j : ℕ) (h : reachVia adj (a :: ts) a j = true) :
    reachVia adj ts a j = true := by
  simp only [reachVia, Bool.or_eq_true, Bool.and_eq_true] at h
  rcases h with h | ⟨_, h2⟩
  · exact h
  · exact h2

/-- Reachability composes through any listed stop (Floyd–Warshall). -/
theorem reachVia_trans (adj : ℕ → ℕ → Bool) (L : List ℕ) :
    ∀ i t j, t ∈ L → reachVia adj L i t = true →
      reachVia adj L t j = true → reachVia adj L i j = true := by
  induction L with
  | nil => intro i t j ht; exact absurd ht (List.not_mem_nil t)
  | cons a ts ih =>
    intro i t j ht h1 h2
    rcases List.mem_cons.mp ht with rfl | hts
    · have g1 := reachVia_to_head adj t ts i h1
      have g2 := reachVia_from_head adj t ts j h2
      simp only [reachVia, Bool.or_eq_true, Bool.and_eq_true]
      exact Or.inr ⟨g1, g2⟩
    · simp only [reachVia, Bool.or_eq_true, Bool.and_eq_true] at h1 h2 ⊢
      rcases h1 with h1 | ⟨h1a, h1b⟩ <;> rcases h2 with h2 | ⟨h2a, h2b⟩
      · exact Or.inl (ih i t j hts h1 h2)
      · exact Or.inr ⟨ih i t a hts h1 h2a, h2b⟩
      · exact Or.inr ⟨h1a, ih a t j hts h1b h2⟩
      · exact Or.inr ⟨h1a, h2b⟩

/-! ## Fold-min lemmas -/

/-- A left fold by `min` is at most its initial value. -/
theorem foldl_min_le_init (l : List ℤ) : ∀ x : ℤ, l.foldl min x ≤ x := by
  induction l with
  | nil => intro x; exact le_refl x
  | cons a l ih =>
    intro x
    exact le_trans (ih (min x a)) (min_le_left x a)

/-- A left fold by `min` is at most every list element. -/
theorem foldl_min_le_mem (l : List ℤ) :
    ∀ (x y : ℤ), y ∈ l → l.foldl min x ≤ y := by
  induction l with
  | nil => intro x y hy; exact absurd hy (List.not_mem_nil y)
  | cons a l ih =>
    intro x y hy
    rcases List.mem_cons.mp hy with rfl | hy
    · exact le_trans (foldl_min_le_init l (min x y)) (min_le_right x y)
    · exact ih (min x a) y hy

/-- A left fold by `min` is attained by the initial value or an element. -/
theorem foldl_min_attained (l : List ℤ) :
    ∀ x : ℤ, l.foldl min x = x ∨ l.foldl min x ∈ l := by
  induction l with
  | nil => intro x; exact Or.inl rfl
  | cons a l ih =>
    intro x
    rcases ih (min x a) with h | h
    · rcases min_choice x a with hmin | hmin
      · exact Or.inl (h.trans hmin)
      · exact Or.inr (List.mem_cons.mpr (Or.inl (h.trans hmin)))
    · exact Or.inr (List.mem_cons.mpr (Or.inr h))

/-! ## Counting lemmas -/

/-- A pointwise-weaker filter keeps at least as many elements. -/
theorem length_filter_mono {l : List ℕ} (p q : ℕ → Bool)
    (h : ∀ a ∈ l, p a = true → q a = true) :
    (l.filter p).length ≤ (l.filter q).length := by
  induction l with
  | nil => exact le_refl 0
  | cons a as ih =>
    have ih' := ih fun b hb => h b (List.mem_cons.mpr (Or.inr hb))
    simp only [List.filter_cons]
    by_cases hp : p a = true
    · rw [if_pos hp, if_pos (h a (List.mem_cons_self a as) hp)]
      simpa using ih'
    · rw [if_neg hp]
      split_ifs with hq
      · exact le_trans ih' (by simp)
      · exact ih'

/-- A duplicate-free list containing three distinct elements has length at
least three. -/
theorem three_le_length {l : List ℕ} (hnd : l.Nodup) {a b c : ℕ}
    (ha : a ∈ l) (hb : b ∈ l) (hc : c ∈ l)
    (hab : a ≠ b) (hac : a ≠ c) (hbc : b ≠ c) : 3 ≤ l.length := by
  have hsub : ({a, b, c} : Finset ℕ) ⊆ l.toFinset := by
    intro x hx
    rw [List.mem_toFinset]
    rcases Finset.mem_insert.mp hx with rfl | hx
    · exact ha
    rcases Finset.mem_insert.mp hx with rfl | hx
    · exact hb
    rw [Finset.mem_singleton] at hx
    exact hx ▸ hc
  have hcard : ({a, b, c} : Finset ℕ).card = 3 := by
    rw [Finset.card_insert_of_not_mem (by simp [hab, hac]),
      Finset.card_insert_of_not_mem (by simp [hbc]), Finset.card_singleton]
  calc 3 = ({a, b, c} : Finset ℕ).card := hcard.symm
    _ ≤ l.toFinset.card := Finset.card_le_card hsub
    _ = l.length := List.toFinset_card_of_nodup hnd

/-! ## Cluster component lemmas -/

/-- Core adjacency is symmetric when the neighbour test is. -/
theorem adjCore_symm (n : ℕ) (isNb : ℕ → ℕ → Bool) (m : ℕ)
    (hsym : ∀ a b, isNb a b = isNb b a) (i j : ℕ) :
    adjCore n isNb m i j = adjCore n isNb m j i := by
  unfold adjCore
  rw [hsym i j]
  cases isCore n isNb m i <;> cases isCore n isNb m j <;> simp

/-- Two adjacent core points are connected to the same points. -/
theorem coreConn_eq_of_adj (n : ℕ) (isNb : ℕ → ℕ → Bool) (m : ℕ)
    (hsym : ∀ a b, isNb a b = isNb b a) (i j : ℕ) (hi : i < n) (hj : j < n)
    (hadj : adjCore n isNb m i j = true) :
    ∀ k, coreConn n isNb m i k = coreConn n isNb m j k := by
  intro k
  have hij : coreConn n isNb m i j = true := reachVia_of_adj _ _ _ _ hadj
  have hji : coreConn n isNb m j i = true :=
    reachVia_of_adj _ _ _ _ ((adjCore_symm n isNb m hsym i j) ▸ hadj)
  by_cases hik : coreConn n isNb m i k = true
  · have hjk : coreConn n isNb m j k = true :=
      reachVia_trans _ _ j i k (List.mem_range.mpr hi) hji hik
    rw [hik, hjk]
  · by_cases hjk : coreConn n isNb m j k = true
    · exact absurd (reachVia_trans _ _ i j k (List.mem_range.mpr hj) hij hjk) hik
    · rw [Bool.eq_false_iff.mpr hik, Bool.eq_false_iff.mpr hjk]

/-- Points connected to the same points have the same representative. -/
theorem repOf_eq_of_conn_eq (n : ℕ) (isNb : ℕ → ℕ → Bool) (m : ℕ)
    (i j : ℕ) (hj : j < n)
    (h : ∀ k, coreConn n isNb m i k = coreConn n isNb m j k) :
    repOf n isNb m i = repOf n isNb m j := by
  have hfe : (List.range n).filter (fun k => coreConn n isNb m i k) =
      (List.range n).filter (fun k => coreConn n isNb m j k) :=
    List.filter_congr (fun k _ => h k)
  unfold repOf
  rw [hfe]
  have hne : (List.range n).filter (fun k => coreConn n isNb m j k) ≠ [] := by
    intro hnil
    have hjmem : j ∈ (List.range n).filter (fun k => coreConn n isNb m j k) := by
      rw [List.mem_filter]
      exact ⟨List.mem_range.mpr hj, reachVia_refl _ _ j⟩
    rw [hnil] at hjmem
    exact absurd hjmem (List.not_mem_nil j)
  rcases hmin : ((List.range n).filter (fun k => coreConn n isNb m j k)).min?
    with _ | v
  · exact absurd (List.min?_eq_none_iff.mp hmin) hne
  · rfl

/-- Adjacent core points carry the same cluster id. -/
theorem coreLabel_eq_of_adj (n : ℕ) (isNb : ℕ → ℕ → Bool) (m : ℕ)
    (hsym : ∀ a b, isNb a b = isNb b a) (i j : ℕ) (hi : i < n) (hj : j < n)
    (hadj : adjCore n isNb m i j = true) :
    coreLabel n isNb m i = coreLabel n isNb m j := by
  unfold coreLabel
  rw [repOf_eq_of_conn_eq n isNb m i j hj
    (coreConn_eq_of_adj n isNb m hsym i j hi hj hadj)]

/-- Being a core point means having at least `m` in-range points. -/
theorem isCore_iff (n : ℕ) (isNb : ℕ → ℕ → Bool) (m i : ℕ) :
    isCore n isNb m i = true ↔
      m ≤ ((List.range n).filter (fun j => isNb i j)).length := by
  simp [isCore]

/-- Membership in the in-range core list. -/
theorem coreNbrs_mem (n : ℕ) (isNb : ℕ → ℕ → Bool) (m i j : ℕ) :
    j ∈ coreNbrs n isNb m i ↔
      j < n ∧ isCore n isNb m j = true ∧ isNb i j = true := by
  simp [coreNbrs, List.mem_filter, List.mem_range, Bool.and_eq_true, and_assoc]

/-- A non-core point in range of some core point gets the smallest cluster
id among its in-range cores, and that id is attained. -/
theorem borderLabel_spec (n : ℕ) (isNb : ℕ → ℕ → Bool) (m i : ℕ)
    (hnc : isCore n isNb m i = false) (r : ℕ) (hr : r ∈ coreNbrs n isNb m i) :
    labelOf n isNb m i ≤ coreLabel n isNb m r ∧
    ∃ s ∈ coreNbrs n isNb m i, coreLabel n isNb m s = labelOf n isNb m i := by
  rcases hcn : coreNbrs n isNb m i with _ | ⟨c0, cs⟩
  · rw [hcn] at hr
    exact absurd hr (List.not_mem_nil r)
  · have hlab : labelOf n isNb m i =
        (cs.map (coreLabel n isNb m)).foldl min (coreLabel n isNb m c0) := by
      unfold labelOf
      rw [if_neg (by rw [hnc]; exact Bool.false_ne_true), hcn]
    constructor
    · rw [hlab]
      rw [hcn] at hr
      rcases List.mem_cons.mp hr with rfl | hr
      · exact foldl_min_le_init _ _
      · exact foldl_min_le_mem _ _ _ (List.mem_map.mpr ⟨r, hr, rfl⟩)
    · rcases foldl_min_attained (cs.map (coreLabel n isNb m))
        (coreLabel n isNb m c0) with h | h
      · exact ⟨c0, hcn ▸ List.mem_cons_self c0 cs, by rw [hlab, h]⟩
      · rcases List.mem_map.mp h with ⟨s, hs, hse⟩
        exact ⟨s, hcn ▸ List.mem_cons.mpr (Or.inr hs), by rw [hlab]; exact hse⟩

/-- Modelled from the spec: the DBSCAN population lower bound.  For
`min_samples ≤ 3`, a reflexive and symmetric neighbour relation gives every
non-noise cluster at least `min_samples` members: a border point adjacent
to cores of two distinct clusters would itself have three in-range points
and hence be core. -/
theorem dbscan_pop_lowerbound (n : ℕ) (isNb : ℕ → ℕ → Bool) (m : ℕ)
    (hsym : ∀ a b, isNb a b = isNb b a) (hrefl : ∀ a, isNb a a = true)
    (hm : m ≤ 3) (c : ℤ) (hc : 0 ≤ c) (i : ℕ) (hi : i < n)
    (hlab : labelOf n isNb m i = c) :
    m ≤ ((List.range n).filter
      (fun j => decide (labelOf n isNb m j = c))).length := by
  obtain ⟨r, hrn, hrc, hrl⟩ : ∃ r, r < n ∧ isCore n isNb m r = true ∧
      coreLabel n isNb m r = c := by
    by_cases hcore : isCore n isNb m i = true
    · refine ⟨i, hi, hcore, ?_⟩
      unfold labelOf at hlab
      rw [if_pos hcore] at hlab
      exact hlab
    · have hnc : isCore n isNb m i = false := by
        cases hx : isCore n isNb m i
        · rfl
        · exact absurd hx hcore
      rcases hcn : coreNbrs n isNb m i with _ | ⟨c0, cs⟩
      · unfold labelOf at hlab
        rw [if_neg hcore, hcn] at hlab
        have hlab' : (-1 : ℤ) = c := hlab
        omega
      · obtain ⟨-, s, hs, hsl⟩ := borderLabel_spec n isNb m i hnc c0
          (hcn ▸ List.mem_cons_self c0 cs)
        obtain ⟨hsn, hsc, -⟩ := (coreNbrs_mem n isNb m i s).mp hs
        exact ⟨s, hsn, hsc, by rw [hsl, hlab]⟩
  have hkey : ∀ j, j < n → isNb r j = true → labelOf n isNb m j = c := by
    intro j hjn hnbj
    by_cases hcj : isCore n isNb m j = true
    · have hadj : adjCore n isNb m r j = true := by
        unfold adjCore
        rw [hrc, hcj, hnbj]
        rfl
      have : labelOf n isNb m j = coreLabel n isNb m j := by
        unfold labelOf
        rw [if_pos hcj]
      rw [this, ← coreLabel_eq_of_adj n isNb m hsym r j hrn hjn hadj, hrl]
    · have hnc : isCore n isNb m j = false := by
        cases hx : isCore n isNb m j
        · rfl
        · exact absurd hx hcj
      have hrmem : r ∈ coreNbrs n isNb m j :=
        (coreNbrs_mem n isNb m j r).mpr ⟨hrn, hrc, by rw [hsym j r]; exact hnbj⟩
      obtain ⟨hle, s, hs, hsl⟩ := borderLabel_spec n isNb m j hnc r hrmem
      by_cases heq : labelOf n isNb m j = c
      · exact heq
      · exfalso
        have hsr : s ≠ r := fun hh => heq (by rw [← hsl, hh, hrl])
        obtain ⟨hsn, hsc, hjs⟩ := (coreNbrs_mem n isNb m j s).mp hs
        have hjr : j ≠ r := by
          intro hh
          rw [hh, hrc] at hnc
          exact Bool.true_eq_false.mp hnc
        have hjs' : j ≠ s := by
          intro hh
          rw [hh, hsc] at hnc
          exact Bool.true_eq_false.mp hnc
        have h3 : 3 ≤ ((List.range n).filter (fun k => isNb j k)).length := by
          refine three_le_length ((List.nodup_range n).filter _)
            (List.mem_filter.mpr ⟨List.mem_range.mpr hjn, hrefl j⟩)
            (List.mem_filter.mpr ⟨List.mem_range.mpr hrn, by rw [hsym j r]; exact hnbj⟩)
            (List.mem_filter.mpr ⟨List.mem_range.mpr hsn, hjs⟩)
            hjr hjs' (Ne.symm hsr)
        have : isCore n isNb m j = true :=
          (isCore_iff n isNb m j).mpr (le_trans hm h3)
        rw [this] at hnc
        exact Bool.true_eq_false.mp hnc
  have hNr : m ≤ ((List.range n).filter (fun k => isNb r k)).length :=
    (isCore_iff n isNb m r).mp hrc
  refine le_trans hNr (length_filter_mono _ _ ?_)
  intro a ha hpa
  exact decide_eq_true (hkey a (List.mem_range.mp ha) hpa)

/-! ## C5 — cluster population lower bound -/

/-- The haversine distance is symmetric. -/
theorem haversineDist_comm (p q : ℝ × ℝ) :
    haversineDist p q = haversineDist q p := by
  unfold haversineDist
  have h1 : Real.sin ((p.1 - q.1) / 2) ^ 2 = Real.sin ((q.1 - p.1) / 2) ^ 2 := by
    rw [show (p.1 - q.1) / 2 = -((q.1 - p.1) / 2) by ring, Real.sin_neg, neg_sq]
  have h2 : Real.sin ((p.2 - q.2) / 2) ^ 2 = Real.sin ((q.2 - p.2) / 2) ^ 2 := by
    rw [show (p.2 - q.2) / 2 = -((q.2 - p.2) / 2) by ring, Real.sin_neg, neg_sq]
  rw [h1, h2, mul_comm (Real.cos p.1) (Real.cos q.1)]

/-- The neighbour relation is symmetric. -/
theorem nbRel_symm (pts : List (ℝ × ℝ)) (epsKm : ℝ) (i j : ℕ) :
    nbRel pts epsKm i j ↔ nbRel pts epsKm j i := by
  unfold nbRel
  rw [haversineDist_comm]

/-- A record with coordinates contributes a point. -/
theorem coordOf_eq_some (r : Record) (h : hasCoords r = true) :
    ∃ p, coordOf r = some p := by
  unfold hasCoords at h
  unfold coordOf
  cases hla : r.latitude <;> cases hlo : r.longitude <;> simp_all

/-- Counting a non-noise cluster id in the merged frame equals counting it
among the DBSCAN labels, provided the labels match the valid rows. -/
theorem mergeLabels_count (df : List Record) (ls : List ℤ) (c : ℤ)
    (hc : c ≠ -1) (hlen : ls.length = (validCoords df).length) :
    ((mergeLabels df ls).filter (fun x => decide (x.cluster = c))).length =
      (ls.filter (fun x => decide (x = c))).length := by
  induction df generalizing ls with
  | nil =>
    have hnil : ls = [] := List.length_eq_zero.mp (by simpa [validCoords] using hlen)
    rw [hnil]
    rfl
  | cons r rs ih =>
    by_cases h : hasCoords r = true
    · obtain ⟨p, hp⟩ := coordOf_eq_some r h
      have hvc : validCoords (r :: rs) = p :: validCoords rs := by
        unfold validCoords
        rw [List.filterMap_cons, hp]
      rw [hvc] at hlen
      rcases ls with _ | ⟨l, ls'⟩
      · simp at hlen
      · have hlen' : ls'.length = (validCoords rs).length := by simpa using hlen
        rw [mergeLabels_cons, if_pos h]
        simp only [List.headD_cons, List.tail_cons]
        rw [List.filter_cons, List.filter_cons]
        by_cases hl : l = c
        · rw [if_pos (decide_eq_true (show (r.withCluster l).cluster = c from hl)),
            if_pos (decide_eq_true hl)]
          simp only [List.length_cons]
          rw [ih ls' hlen']
        · rw [if_neg (by simpa using hl), if_neg (by simpa using hl)]
          exact ih ls' hlen'
    · have hp : coordOf r = none := coordOf_eq_none r (by
        cases hx : hasCoords r
        · rfl
        · exact absurd hx h)
      have hvc : validCoords (r :: rs) = validCoords rs := by
        unfold validCoords
        rw [List.filterMap_cons, hp]
      rw [hvc] at hlen
      rw [mergeLabels_cons, if_neg h]
      rw [List.filter_cons,
        if_neg (by simpa using fun hh : (-1 : ℤ) = c => hc hh.symm)]
      exact ih ls hlen

/-- DBSCAN yields one label per point. -/
theorem dbscanLabels_length (n : ℕ) (isNb : ℕ → ℕ → Bool) (m : ℕ) :
    (dbscanLabels n isNb m).length = n := by
  simp [dbscanLabels]

/-- Counting a label value among the DBSCAN labels equals counting the
indices that receive it. -/
theorem dbscanLabels_filter_count (n : ℕ) (isNb : ℕ → ℕ → Bool) (m : ℕ)
    (c : ℤ) :
    ((dbscanLabels n isNb m).filter (fun x => decide (x = c))).length =
      ((List.range n).filter
        (fun j => decide (labelOf n isNb m j = c))).length := by
  unfold dbscanLabels
  rw [List.filter_map, List.length_map]
  rfl

/-- C5 (amended): whenever `min_samples ≤ 3` (in particular at the default
`min_samples = 3`) and `eps_km ≥ 0`, every record assigned to a non-noise
cluster (`cluster_id ≥ 0`) belongs to a cluster with at least `min_samples`
members.  For `min_samples ≥ 4` this can fail: a border point in range of
the cores of two clusters is absorbed by the earlier one, which can leave
the other cluster with fewer than `min_samples` members. -/
theorem claim_C5 (df : List Record) (epsKm : ℝ) (m : ℕ)
    (hdec : ∀ i j, Decidable (nbRel (validCoords df) epsKm i j))
    (hm : m ≤ 3) (heps : 0 ≤ epsKm) (c : ℤ) (hc : 0 ≤ c)
    (r : CRecord) (hr : r ∈ detectClusters df epsKm m hdec)
    (hrc : r.cluster = c) :
    m ≤ ((detectClusters df epsKm m hdec).filter
      (fun x => decide (x.cluster = c))).length := by
  rw [detectClusters_eq] at hr ⊢
  by_cases hlen : (validCoords df).length = 0
  · rw [if_pos hlen] at hr
    rcases List.mem_map.mp hr with ⟨r0, -, rfl⟩
    have : (-1 : ℤ) = c := hrc
    omega
  · rw [if_neg hlen] at hr ⊢
    have hsym : ∀ a b,
        (fun i j => @decide (nbRel (validCoords df) epsKm i j) (hdec i j)) a b =
        (fun i j => @decide (nbRel (validCoords df) epsKm i j) (hdec i j)) b a := by
      intro a b
      exact decide_eq_decide.mpr (nbRel_symm _ _ a b)
    have hrefl : ∀ a,
        (fun i j => @decide (nbRel (validCoords df) epsKm i j) (hdec i j)) a a =
          true :=
      fun a => decide_eq_true (nbRel_of_getD_eq _ _ heps a a rfl)
    have hcount := mergeLabels_count df
      (dbscanLabels (validCoords df).length
        (fun i j => @decide (nbRel (validCoords df) epsKm i j) (hdec i j)) m)
      c (by omega) (by rw [dbscanLabels_length])
    have hmem : r ∈ (mergeLabels df
        (dbscanLabels (validCoords df).length
          (fun i j => @decide (nbRel (validCoords df) epsKm i j) (hdec i j))
          m)).filter (fun x => decide (x.cluster = c)) :=
      List.mem_filter.mpr ⟨hr, decide_eq_true hrc⟩
    have hpos := List.length_pos_of_mem hmem
    rw [hcount, dbscanLabels_filter_count] at hpos
    have hne := List.ne_nil_of_length_pos hpos
    obtain ⟨i, hi⟩ := List.exists_mem_of_ne_nil _ hne
    obtain ⟨hir, hil⟩ := List.mem_filter.mp hi
    have hbound := dbscan_pop_lowerbound (validCoords df).length
      (fun i j => @decide (nbRel (validCoords df) epsKm i j) (hdec i j)) m
      hsym hrefl hm c hc i (List.mem_range.mp hir) (of_decide_eq_true hil)
    rw [hcount, dbscanLabels_filter_count]
    exact hbound

/-- C5 witness: three identical origin points with the default parameters
form one cluster of population 3. -/
theorem claim_C5_witness :
    3 ≤ ((detectClusters
        [⟨chars "P0", some 0, some 0, [], []⟩,
          ⟨chars "P1", some 0, some 0, [], []⟩,
          ⟨chars "P2", some 0, some 0, [], []⟩] 0.5 3
        (decNbRelZero _ (by
          intro q hq
          rw [show validCoords
              [⟨chars "P0", some 0, some 0, [], []⟩,
                ⟨chars "P1", some 0, some 0, [], []⟩,
                ⟨chars "P2", some 0, some 0, [], []⟩] =
              [((0 : ℝ), (0 : ℝ)), (0, 0), (0, 0)] from rfl] at hq
          simp only [List.mem_cons, List.not_mem_nil, or_false] at hq
          rcases hq with rfl | rfl | rfl <;> rfl)
          0.5 (by norm_num))).filter
      (fun x => decide (x.cluster = 0))).length := by
  refine claim_C5 _ 0.5 3 _ (le_refl 3) (by norm_num) 0 (le_refl 0)
    (Record.withCluster ⟨chars "P0", some 0, some 0, [], []⟩ 0) ?_ rfl
  exact List.mem_cons_self _ _

/-! ## The haversine distance along the equator -/

/-- On the equator the haversine distance is the longitude difference (for
differences of at most π radians). -/
theorem haversine_equator (a b : ℝ) (h : |a - b| ≤ Real.pi) :
    haversineDist (0, a) (0, b) = |a - b| := by
  unfold haversineDist
  simp only [sub_self, zero_div, Real.sin_zero, Real.cos_zero, one_mul,
    ne_eq, OfNat.ofNat_ne_zero, not_false_eq_true, zero_pow, zero_add]
  rw [Real.sqrt_sq_eq_abs]
  have h2 : |(a - b) / 2| ≤ Real.pi / 2 := by
    rw [abs_div]
    have : |(2 : ℝ)| = 2 := by norm_num
    rw [this]
    linarith
  have habs : |Real.sin ((a - b) / 2)| = Real.sin |(a - b) / 2| := by
    rcases le_or_lt 0 ((a - b) / 2) with hx | hx
    · rw [abs_of_nonneg hx,
        abs_of_nonneg (Real.sin_nonneg_of_nonneg_of_le_pi hx
          (le_trans (le_trans (le_abs_self _) h2) (by linarith [Real.pi_pos])))]
    · rw [abs_of_neg hx,
        abs_of_nonpos (Real.sin_nonpos_of_nonnpos_of_neg_pi_le (le_of_lt hx)
          (by
            have := neg_abs_le ((a - b) / 2)
            linarith [Real.pi_pos])), ← Real.sin_neg]
  rw [habs, Real.arcsin_sin (le_trans (by linarith [Real.pi_pos]) (abs_nonneg _))
    h2, abs_div]
  have : |(2 : ℝ)| = 2 := by norm_num
  rw [this]
  ring

/-- The same fact after the degree-to-radian conversion. -/
theorem haversine_equator_deg (a b : ℝ)
    (h : |a - b| * (Real.pi / 180) ≤ Real.pi) :
    haversineDist (toRad (0, a)) (toRad (0, b)) = |a - b| * (Real.pi / 180) := by
  have ht : ∀ x : ℝ, toRad (0, x) = (0, x * (Real.pi / 180)) := by
    intro x
    unfold toRad
    simp
  rw [ht, ht]
  have hd : a * (Real.pi / 180) - b * (Real.pi / 180) = (a - b) * (Real.pi / 180) := by
    ring
  have habs : |a * (Real.pi / 180) - b * (Real.pi / 180)| =
      |a - b| * (Real.pi / 180) := by
    rw [hd, abs_mul, abs_of_pos (by positivity : (0 : ℝ) < Real.pi / 180)]
  rw [haversine_equator _ _ (by rw [habs]; exact h), habs]

/-! ## A concrete run refuting the population bound at `min_samples = 4` -/

/-- The scratch positions stay within [−6, 2] half-degrees. -/
theorem posZ_bound (i : ℕ) : -6 ≤ posZ i ∧ posZ i ≤ 2 := by
  rcases i with _ | _ | _ | _ | _ | _ | _ | n
  · exact ⟨by decide, by decide⟩
  · exact ⟨by decide, by decide⟩
  · exact ⟨by decide, by decide⟩
  · exact ⟨by decide, by decide⟩
  · exact ⟨by decide, by decide⟩
  · exact ⟨by decide, by decide⟩
  · exact ⟨by decide, by decide⟩
  · exact ⟨(by decide : (-6 : ℤ) ≤ 0), (by decide : (0 : ℤ) ≤ 2)⟩

/-- Seven equator points (latitude 0, longitudes in degrees): two groups
2 degrees apart, with a point at −1 degree in range of both groups'
cores. -/
noncomputable def pts7 : List (ℝ × ℝ) :=
  [(0, -2), (0, -3), (0, -5/2), (0, -1), (0, 0), (0, 1), (0, 1/2)]

/-- The geocoded frame carrying the seven points. -/
noncomputable def df7 : List Record :=
  [⟨chars "Q0", some 0, some (-2), [], []⟩,
    ⟨chars "Q1", some 0, some (-3), [], []⟩,
    ⟨chars "Q2", some 0, some (-5/2), [], []⟩,
    ⟨chars "Q3", some 0, some (-1), [], []⟩,
    ⟨chars "Q4", some 0, some 0, [], []⟩,
    ⟨chars "Q5", some 0, some 1, [], []⟩,
    ⟨chars "Q6", some 0, some (1/2), [], []⟩]

/-- Reading the seven points through `getD` matches the half-degree table. -/
theorem pts7_getD (k : ℕ) : pts7.getD k (0, 0) = (0, (posZ k : ℝ) / 2) := by
  rcases k with _ | _ | _ | _ | _ | _ | _ | n <;>
    · simp only [pts7, posZ, List.getD]
      norm_num

/-- The real neighbour relation of the seven-point run coincides with the
integer half-degree test `nb7`: a 120 km radius on the equator reaches
1 degree of longitude but not 1.5 degrees. -/
theorem nbRel7_iff (i j : ℕ) : nbRel pts7 120 i j ↔ nb7 i j = true := by
  unfold nbRel
  rw [pts7_getD i, pts7_getD j]
  obtain ⟨hi1, hi2⟩ := posZ_bound i
  obtain ⟨hj1, hj2⟩ := posZ_bound j
  have hd : (posZ i : ℝ) / 2 - (posZ j : ℝ) / 2 =
      ((posZ i - posZ j : ℤ) : ℝ) / 2 := by
    push_cast
    ring
  have hcast : |((posZ i - posZ j : ℤ) : ℝ)| =
      ((|posZ i - posZ j| : ℤ) : ℝ) := Int.cast_abs.symm
  have habs2 : |(posZ i : ℝ) / 2 - (posZ j : ℝ) / 2| =
      ((|posZ i - posZ j| : ℤ) : ℝ) / 2 := by
    rw [hd, abs_div, hcast]
    norm_num
  have hw0 : (0 : ℝ) ≤ ((|posZ i - posZ j| : ℤ) : ℝ) := by
    exact_mod_cast abs_nonneg (posZ i - posZ j)
  have hb12 : ((|posZ i - posZ j| : ℤ) : ℝ) ≤ 12 := by
    have h8 : |posZ i - posZ j| ≤ 12 := abs_le.mpr ⟨by linarith, by linarith⟩
    exact_mod_cast h8
  have hpre : |(posZ i : ℝ) / 2 - (posZ j : ℝ) / 2| * (Real.pi / 180) ≤
      Real.pi := by
    rw [habs2]
    nlinarith [Real.pi_pos]
  rw [haversine_equator_deg _ _ hpre, habs2]
  have hnb : nb7 i j = true ↔ (posZ i - posZ j) ^ 2 ≤ 6 := by
    simp [nb7]
  rw [hnb]
  rcases le_or_lt (|posZ i - posZ j|) 2 with hcase | hcase
  · have hwr : ((|posZ i - posZ j| : ℤ) : ℝ) ≤ 2 := by exact_mod_cast hcase
    constructor
    · intro _
      nlinarith [sq_abs (posZ i - posZ j), hcase, abs_nonneg (posZ i - posZ j)]
    · intro _
      have hπ : Real.pi < 3.15 := Real.pi_lt_d2
      nlinarith [Real.pi_pos]
  · have h3 : (3 : ℤ) ≤ |posZ i - posZ j| := by linarith
    have hwr : (3 : ℝ) ≤ ((|posZ i - posZ j| : ℤ) : ℝ) := by exact_mod_cast h3
    constructor
    · intro habs
      exfalso
      have hπ : (3.14 : ℝ) < Real.pi := Real.pi_gt_d2
      nlinarith [Real.pi_pos]
    · intro h6
      exfalso
      nlinarith [sq_abs (posZ i - posZ j), h3, h6]

/-- Decidability of the seven-point neighbour relation, through `nb7`. -/
def hdec7 : ∀ i j, Decidable (nbRel pts7 120 i j) := fun i j =>
  decidable_of_iff (nb7 i j = true) (nbRel7_iff i j).symm

/-- C5 as stated is false on the code: running `detect_clusters` on the
seven equator points with `eps_km = 120` and `min_samples = 4` produces
cluster 1 = {Q4, Q5, Q6} with population 3 < 4.  Q3 sits in range of the
cores Q0 and Q4 of both clusters and is absorbed by the earlier cluster 0,
leaving cluster 1 below `min_samples`. -/
theorem claim_C5_counterexample :
    ((detectClusters df7 120 4 hdec7).map (fun x => x.cluster)) =
      [0, 0, 0, 0, 1, 1, 1] ∧
    ((detectClusters df7 120 4 hdec7).filter
      (fun x => decide (x.cluster = 1))).length = 3 ∧
    ¬ (4 ≤ ((detectClusters df7 120 4 hdec7).filter
      (fun x => decide (x.cluster = 1))).length) := by
  have hfe : (fun i j =>
      @decide (nbRel (validCoords df7) 120 i j) (hdec7 i j)) = nb7 := by
    funext i j
    by_cases h : nb7 i j = true
    · rw [h]
      exact @decide_eq_true _ (hdec7 i j) ((nbRel7_iff i j).mpr h)
    · have hf : nb7 i j = false := by
        cases hx : nb7 i j
        · rfl
        · exact absurd hx h
      rw [hf]
      exact @decide_eq_false _ (hdec7 i j) (fun hr => h ((nbRel7_iff i j).mp hr))
  have h1 : detectClusters df7 120 4 hdec7 =
      mergeLabels df7 (dbscanLabels 7 nb7 4) := by
    rw [detectClusters_eq,
      if_neg (by decide : ¬ (validCoords df7).length = 0), hfe,
      show (validCoords df7).length = 7 from rfl]
  rw [h1]
  rw [show dbscanLabels 7 nb7 4 = [0, 0, 0, 0, 1, 1, 1] by decide]
  refine ⟨rfl, rfl, fun hh => ?_⟩
  exact absurd (show (4 : ℕ) ≤ 3 from hh) (by norm_num)
